import Mathlib

/-!
Shallow embedding of the windowed tally engine of `window_reads.py` /
`window_feature.py` (HollickLab/window_feature), and proofs about it.

Conventions of the embedding:
* Python integers are `ℤ`; the floating-point weights (`nh` and the tally
  cells) are modelled as exact rationals `ℚ`.
* `math.ceil(a / float(b))` is modelled as `⌈(a : ℚ) / (b : ℚ)⌉`.
* Fallible code (uncaught exceptions, `sys.exit`) returns `Option`/`Except`.
* The nested mutable list `steps[chrom][bin][lengthclass][strand]` is
  modelled as a total function `String → ℤ → ℤ → ℕ → ℚ` updated pointwise.
-/

namespace WindowFeature

/-! ## Bin-index arithmetic (window_reads.py lines 259-261, 218, 288-289) -/

/-- `int(math.ceil(a / float(b)))` for integers `a`, `b`: ceiling division,
written with Euclidean integer division so that it evaluates; the lemma
`ceilDiv_eq_ceil` below shows it is the rational ceiling whenever `b > 0`. -/
def ceilDiv (a b : ℤ) : ℤ := -(-a / b)

/-- `bin = int(math.ceil(pos / float(step))) - 1` (window_reads.py lines 260-261). -/
def binIdx (pos step : ℤ) : ℤ := ceilDiv pos step - 1

/-- Bins allocated per chromosome:
`int(math.ceil(chromosomes[c] / float(step)))` (window_reads.py line 218). -/
def binCount (L step : ℤ) : ℤ := ceilDiv L step

/-- `int(math.ceil((chromosomes[c] - window) / float(step))) + 1`
(window_reads.py line 289) as a function of the chromosome length used. -/
def windowCount (L window step : ℤ) : ℤ := ceilDiv (L - window) step + 1

/-- The `window_count` the program actually uses (window_reads.py line 289):
it is computed once, before the `for c in chromosomes.keys()` loop of line
290, from the loop variable `c` left over from the steps-initialization loop
of line 214, i.e. from the LAST chromosome in key-iteration order.  The
chromosome table is modelled as a list in that iteration order.  `none`
models the `NameError` that would occur with an empty table. -/
def windowCountUsed (chroms : List (String × ℤ)) (window step : ℤ) : Option ℤ :=
  chroms.getLast?.map fun cl => windowCount cl.2 window step

/-- The spec's bin-index formula, `b = floor((position-1)/step)` (spec §3,
StepBin).  Second formulation, kept separate so it can be compared with the
code's `binIdx`. -/
def specBinIdx (pos step : ℤ) : ℤ := ⌊((pos - 1 : ℤ) : ℚ) / (step : ℚ)⌋

/-! ## verifyWS (window_reads.py lines 43-71) -/

/-- The interactive re-prompting loop of `verifyWS` (window_reads.py lines
57-68).  The remaining user inputs are modelled as a list of integers, one
per `raw_input` call (each prompt is assumed to receive an integer token).
When `w == 0` the code raises `ZeroError` before reading a step value, so
only one token is consumed in that iteration.  `none` models the `EOFError`
crash of `raw_input` once the input list is exhausted: the loop never
produces a configuration in that case. -/
def verifyWSLoop : List ℤ → Option (ℤ × ℤ)
  | [] => none
  | w :: rest =>
    if w = 0 then verifyWSLoop rest
    else
      match rest with
      | [] => none
      | s :: rest2 =>
        if s = 0 ∨ w % s ≠ 0 then verifyWSLoop rest2 else some (w, s)

/-- `verifyWS(w, s)` (window_reads.py lines 43-71): if the command-line
window/step pair is invalid the function does not abort; it keeps prompting
the user for replacement values and returns the first acceptable pair. -/
def verifyWS (w s : ℤ) (inputs : List ℤ) : Option (ℤ × ℤ) :=
  if w = 0 ∨ s = 0 ∨ w % s ≠ 0 then verifyWSLoop inputs else some (w, s)

/-! ## getLength (window_reads.py lines 110-125) -/

/-- A Python value held by the variable `number` in `getLength`: it starts
as the string `""`, grows by string concatenation while digits are read,
and is reset to the integer `0` (not the string `"0"`) after every
non-digit character (window_reads.py line 124). -/
inductive PyVal where
  | str : List Char → PyVal
  | int : ℤ → PyVal
deriving DecidableEq

/-- Python's `int(number)` for the values `number` can take in `getLength`:
an integer converts to itself; a non-empty all-digit string parses; the
empty string raises `ValueError` (modelled as `none` — inside the `except`
block this exception is uncaught and kills the call). -/
def pyIntOf : PyVal → Option ℤ
  | .int n => some n
  | .str s =>
    if s = [] then none
    else some (s.foldl (fun a c => a * 10 + ((c.toNat : ℤ) - 48)) 0)

/-- One pass of the character loop of `getLength` (window_reads.py lines
117-124).  For a digit `c`, `number += str(int(c))` succeeds only while
`number` is still a string; once `number` has been reset to the integer
`0`, `0 += "digit"` raises an uncaught `TypeError` (modelled as `none`).
For a non-digit, `int(c)` raises `ValueError`, and the handler adds
`int(number)` to `count` when `c` is one of `M X I S =`, then sets
`number = 0`. -/
def getLengthAux : List Char → PyVal → ℤ → Option ℤ
  | [], _, count => some count
  | c :: rest, number, count =>
    if c.isDigit then
      match number with
      | .str s => getLengthAux rest (.str (s ++ [c])) count
      | .int _ => none
    else
      if c = 'M' ∨ c = 'X' ∨ c = 'I' ∨ c = 'S' ∨ c = '=' then
        match pyIntOf number with
        | some n => getLengthAux rest (.int 0) (count + n)
        | none => none
      else getLengthAux rest (.int 0) count

/-- `getLength(cigar)` (window_reads.py lines 110-125).  `none` models an
uncaught exception escaping the function. -/
def getLength (cigar : String) : Option ℤ :=
  getLengthAux cigar.data (.str []) 0

/-- Tokenize a CIGAR string into (operand count, operation code) pairs. -/
def cigarOpsAux : List Char → ℕ → List (ℕ × Char)
  | [], _ => []
  | c :: rest, acc =>
    if c.isDigit then cigarOpsAux rest (acc * 10 + (c.toNat - 48))
    else (acc, c) :: cigarOpsAux rest 0

/-- The length the spec ascribes to a CIGAR string: the sum of the operand
counts of the `M`, `X`, `I`, `S` and `=` operations (spec §3, §6).  Second
formulation, kept separate so it can be compared with the code's
`getLength`. -/
def specCigarLength (cigar : String) : ℕ :=
  (((cigarOpsAux cigar.data 0).filter fun p =>
      p.2 == 'M' || p.2 == 'X' || p.2 == 'I' || p.2 == 'S' || p.2 == '=').map
    Prod.fst).sum

/-! ## Per-record bin contributions (window_reads.py lines 259-274) -/

/-- The list of `(bin index, added weight)` increments a single alignment
record causes in its `(length class, strand)` tally row (window_reads.py
lines 259-274): a single-bin record adds `(r_length * na) / nh` to its one
bin; a multi-bin record adds `(((bin_s+1)*step - r_start + 1) * na) / nh`
to `bin_s`, `((r_end - bin_e*step) * na) / nh` to `bin_e`, and
`(step * na) / nh` to each of the `bin_e - bin_s - 1` interior bins. -/
def contribs (step pos len na : ℤ) (nh : ℚ) : List (ℤ × ℚ) :=
  let endp := pos + len - 1
  let bs := binIdx pos step
  let be := binIdx endp step
  if bs = be then
    [(bs, ((len * na : ℤ) : ℚ) / nh)]
  else
    [(bs, (((bs + 1) * step - pos + 1) * na : ℤ) / nh),
     (be, ((endp - be * step) * na : ℤ) / nh)] ++
      (List.range (be - bs - 1).toNat).map fun (b : ℕ) =>
        (bs + 1 + (b : ℤ), ((step * na : ℤ) : ℚ) / nh)

/-! ## Ingestion state (window_reads.py lines 200-274) -/

/-- The run configuration relevant to the tally engine (argparse options of
window_reads.py lines 136-175, after `verifyWS`). -/
structure Config where
  window : ℤ
  step : ℤ
  sizemin : ℤ
  sizemax : ℤ
  poolstrands : Bool
  abundance : Bool
  normalize : Bool
deriving DecidableEq

/-- One alignment line of the SAM body, already split into fields: `flag` is
column 2, `chrom` column 3, `pos` column 4; `length` is the value
`getLength` returned for its CIGAR column.  `naTag` / `nhTag` hold the
value of the `NA:i:` / `NH:i:` optional field when the line carries one
(the backward scans of window_reads.py lines 242-246 and 251-255 find it),
and `none` when the line carries no such field — in which case those scans
fall through without assigning, leaving the Python variable `na` / `nh` at
whatever value the previous record gave it. -/
structure SamRec where
  flag : ℤ
  chrom : String
  pos : ℤ
  length : ℤ
  naTag : Option ℤ
  nhTag : Option ℚ
deriving DecidableEq

/-- The nested tally `steps[chrom][bin][r_length - sizemin][strand]`
(window_reads.py lines 212-218), modelled as a total zero-initialized
function. -/
def Steps : Type := String → ℤ → ℤ → ℕ → ℚ

/-- A single `+=` into one tally slot. -/
def addAt (st : Steps) (c : String) (b l : ℤ) (x : ℕ) (v : ℚ) : Steps :=
  fun c' b' l' x' =>
    if c' = c ∧ b' = b ∧ l' = l ∧ x' = x then st c' b' l' x' + v
    else st c' b' l' x'

/-- Apply every `(bin, weight)` increment of one record to the tallies, in
the order the code performs them (window_reads.py lines 263-274). -/
def addContribs (c : String) (l : ℤ) (x : ℕ) : Steps → List (ℤ × ℚ) → Steps
  | st, [] => st
  | st, p :: ps => addContribs c l x (addAt st c p.1 l x p.2) ps

/-- Strand slot of a record (window_reads.py lines 233-235): `1` only when
strands are not pooled and the FLAG equals 16, else `0`. -/
def strandOf (cfg : Config) (r : SamRec) : ℕ :=
  if ¬cfg.poolstrands ∧ r.flag = 16 then 1 else 0

/-- The mutable module-level state the record loop threads along
(window_reads.py lines 221-274): the tallies plus the last values assigned
to the Python variables `na` and `nh` (`none` = never assigned yet). -/
structure IngSt where
  steps : Steps
  na : Option ℤ
  nh : Option ℚ

/-- Initial ingestion state: zero tallies, `na`/`nh` unassigned. -/
def ingInit : IngSt :=
  ⟨fun _ _ _ _ => 0, none, none⟩

/-- Process one alignment line (window_reads.py lines 227-274).  Lines with
FLAG 4 and reads outside `[sizemin, sizemax]` are skipped.  With
`--abundance`, `na` becomes the record's NA value if the line has one and
otherwise KEEPS its previous value (the backward scan simply never breaks);
if it was never assigned, the `steps[...] += ... * na ...` line raises an
uncaught `NameError`, modelled as `none`.  `--normalize` and `nh` behave the
same way.  Without the option, `na = 1` / `nh = 1` is reassigned on every
record. -/
def processRec (cfg : Config) (st : IngSt) (r : SamRec) : Option IngSt :=
  if r.flag ≠ 4 then
    if cfg.sizemin ≤ r.length ∧ r.length ≤ cfg.sizemax then
      let na? := if cfg.abundance then (r.naTag <|> st.na) else some 1
      let nh? := if cfg.normalize then (r.nhTag <|> st.nh) else some 1
      match na?, nh? with
      | some na, some nh =>
        some ⟨addContribs r.chrom (r.length - cfg.sizemin) (strandOf cfg r)
                st.steps (contribs cfg.step r.pos r.length na nh),
              some na, some nh⟩
      | _, _ => none
    else some st
  else some st

/-- The record loop over a whole input (window_reads.py lines 221-274). -/
def processAll (cfg : Config) (st : IngSt) (rs : List SamRec) : Option IngSt :=
  rs.foldlM (processRec cfg) st

/-- The tag check `getChromosomes` performs (window_reads.py lines 96-105):
when `--normalize` / `--abundance` is set, the FIRST alignment line of the
file (and only that line) must carry an `NH` / `NA` optional field, else
the program exits. -/
def headerTagCheck (cfg : Config) (first : SamRec) : Bool :=
  (!cfg.normalize || first.nhTag.isSome) && (!cfg.abundance || first.naTag.isSome)

/-- A record is `resolved` when it carries every weighting tag the enabled
features need, so the tag scans never fall back to a stale value. -/
def resolvedRec (cfg : Config) (r : SamRec) : Prop :=
  (cfg.abundance → r.naTag.isSome) ∧ (cfg.normalize → r.nhTag.isSome)

instance (cfg : Config) (r : SamRec) : Decidable (resolvedRec cfg r) :=
  decidable_of_iff
    ((cfg.abundance → r.naTag.isSome) ∧ (cfg.normalize → r.nhTag.isSome)) Iff.rfl

/-- The `na` weight a resolved record is processed with. -/
def resolvedNa (cfg : Config) (r : SamRec) : ℤ :=
  if cfg.abundance then r.naTag.getD 0 else 1

/-- The `nh` weight a resolved record is processed with. -/
def resolvedNh (cfg : Config) (r : SamRec) : ℚ :=
  if cfg.normalize then r.nhTag.getD 0 else 1

/-- Net increment a resolved record makes to one tally slot. -/
def recDelta (cfg : Config) (r : SamRec) (c : String) (b l : ℤ) (x : ℕ) : ℚ :=
  if r.flag ≠ 4 ∧ cfg.sizemin ≤ r.length ∧ r.length ≤ cfg.sizemax then
    if c = r.chrom ∧ l = r.length - cfg.sizemin ∧ x = strandOf cfg r then
      (((contribs cfg.step r.pos r.length (resolvedNa cfg r)
            (resolvedNh cfg r)).filter fun p => decide (p.1 = b)).map
        Prod.snd).sum
    else 0
  else 0

/-! ## Window aggregation (window_reads.py lines 288-308) -/

/-- The window-aggregation loops for one chromosome (window_reads.py lines
294-301): for each `w` in `range(window_count)` and each tally slot, sum
`steps[c][w+s][l][x]` over `s` in `range(window/step)`.  `stepsC` is that
chromosome's tally grid and `nbins` its allocated bin count; an access at a
bin index `≥ nbins` is the `IndexError` the Python list indexing raises. -/
def aggregateChrom (stepsC : ℤ → ℤ → ℕ → ℚ) (nbins wc : ℤ)
    (wstep nlen nstr : ℕ) : Except String (List (List (List ℚ))) :=
  (List.range wc.toNat).mapM fun w =>
    (List.range nlen).mapM fun l =>
      (List.range nstr).mapM fun x =>
        (List.range wstep).foldlM
          (fun acc s =>
            if ((w + s : ℕ) : ℤ) < nbins then
              Except.ok (acc + stepsC ((w + s : ℕ) : ℤ) (l : ℤ) x)
            else Except.error "IndexError")
          (0 : ℚ)

/-! ## Concrete data used by the closed theorems below -/

/-- A run configuration with `--abundance` enabled:
window 1000, step 100, sizemin 20, sizemax 25, no strand pooling,
abundance on, normalize off. -/
def cfgAb : Config :=
  ⟨1000, 100, 20, 25, false, true, false⟩

/-- Mapped 20-nt alignment on chromosome `A`, position 1, with `NA:i:3`. -/
def recA : SamRec :=
  ⟨0, "A", 1, 20, some 3, none⟩

/-- Mapped 20-nt alignment on chromosome `A`, position 101, with `NA:i:5`. -/
def recB : SamRec :=
  ⟨0, "A", 101, 20, some 5, none⟩

/-- Mapped 20-nt alignment on chromosome `A`, position 201, carrying NO
`NA` optional field. -/
def recC : SamRec :=
  ⟨0, "A", 201, 20, none, none⟩

/-- A small per-chromosome tally grid used to instantiate the window
aggregation theorem. -/
def demoSteps : ℤ → ℤ → ℕ → ℚ :=
  fun b l x => (b : ℚ) + (l : ℚ) + (x : ℚ)

/-! ## Ceiling-division bridge -/

/-- `ceilDiv` is the rational ceiling `⌈a / b⌉` whenever the divisor is
positive, i.e. it is a faithful rendering of `int(math.ceil(a / float(b)))`. -/
lemma ceilDiv_eq_ceil (a b : ℤ) (hb : 0 < b) :
    ceilDiv a b = ⌈(a : ℚ) / (b : ℚ)⌉ := by
  have hbQ : (0 : ℚ) < (b : ℚ) := by exact_mod_cast hb
  have hdm : b * (-a / b) + -a % b = -a := Int.ediv_add_emod (-a) b
  have hr0 : (0 : ℤ) ≤ -a % b := Int.emod_nonneg _ (ne_of_gt hb)
  have hrb : -a % b < b := Int.emod_lt_of_pos _ hb
  have hdmQ : (b : ℚ) * ((-a / b : ℤ) : ℚ) + ((-a % b : ℤ) : ℚ) = -(a : ℚ) := by
    exact_mod_cast hdm
  have hr0Q : (0 : ℚ) ≤ ((-a % b : ℤ) : ℚ) := by exact_mod_cast hr0
  have hrbQ : ((-a % b : ℤ) : ℚ) < (b : ℚ) := by exact_mod_cast hrb
  symm
  rw [Int.ceil_eq_iff]
  simp only [ceilDiv]
  push_cast
  constructor
  · rw [lt_div_iff₀ hbQ]
    nlinarith
  · rw [div_le_iff₀ hbQ]
    nlinarith

/-- `binIdx` is monotone in the position, for a positive step. -/
lemma binIdx_mono (step p q : ℤ) (hstep : 0 < step) (hpq : p ≤ q) :
    binIdx p step ≤ binIdx q step := by
  have hc : (0 : ℚ) < (step : ℚ) := by exact_mod_cast hstep
  simp only [binIdx, ceilDiv_eq_ceil _ _ hstep]
  have hle : (p : ℚ) / (step : ℚ) ≤ (q : ℚ) / (step : ℚ) :=
    (div_le_div_iff_of_pos_right hc).mpr (by exact_mod_cast hpq)
  have := Int.ceil_mono hle
  omega

/-- C8.  For every positive `position` and `step`, the code's zero-based bin
index `ceil(position/step) - 1` (window_reads.py lines 260-261) equals the
spec's formula `floor((position-1)/step)` (spec §3, StepBin). -/
theorem C8_bin_index_formulas_agree (pos step : ℤ) (hpos : 1 ≤ pos) (hstep : 1 ≤ step) :
    binIdx pos step = specBinIdx pos step := by
  have hb : (0 : ℤ) < step := by omega
  have hbQ : (0 : ℚ) < (step : ℚ) := by exact_mod_cast hb
  rw [binIdx, ceilDiv_eq_ceil pos step hb, specBinIdx, sub_eq_iff_eq_add]
  rw [Int.ceil_eq_iff]
  set m := ⌊((pos - 1 : ℤ) : ℚ) / (step : ℚ)⌋ with hm
  have h1 : ((m : ℤ) : ℚ) ≤ ((pos - 1 : ℤ) : ℚ) / (step : ℚ) := Int.floor_le _
  have h1' : ((m : ℤ) : ℚ) * (step : ℚ) ≤ ((pos - 1 : ℤ) : ℚ) := (le_div_iff₀ hbQ).mp h1
  have hstepQ : (1 : ℚ) ≤ (step : ℚ) := by exact_mod_cast hstep
  constructor
  · rw [lt_div_iff₀ hbQ]
    push_cast
    push_cast at h1'
    nlinarith
  · rw [div_le_iff₀ hbQ]
    have h2 : ((pos - 1 : ℤ) : ℚ) / (step : ℚ) < (m : ℚ) + 1 := Int.lt_floor_add_one _
    have h2' : ((pos - 1 : ℤ) : ℚ) < ((m : ℚ) + 1) * (step : ℚ) := (div_lt_iff₀ hbQ).mp h2
    have h2'' : (pos - 1 : ℤ) < (m + 1) * step := by exact_mod_cast h2'
    have h3 : (pos : ℤ) ≤ (m + 1) * step := by linarith
    push_cast
    exact_mod_cast h3

/-- Witness for C8 at position 15, step 10 (both bin formulas give 1). -/
theorem C8_bin_index_formulas_agree_witness :
    (1 : ℤ) ≤ 15 ∧ binIdx 15 10 = specBinIdx 15 10 :=
  ⟨by decide, C8_bin_index_formulas_agree 15 10 (by decide) (by decide)⟩

/-- Sum of the second components of a constant-weight interior-bin list. -/
lemma sum_map_snd_range (w : ℚ) (g : ℕ → ℤ) (n : ℕ) :
    (((List.range n).map fun b => (g b, w)).map Prod.snd).sum = n * w := by
  induction n with
  | zero => simp
  | succ n ih =>
    rw [List.range_succ]
    simp only [List.map_append, List.sum_append, List.map_cons, List.map_nil,
      List.sum_cons, List.sum_nil, ih]
    push_cast
    ring

/-- C4.  A record's weighted length is conserved exactly across its bin
split: the total of all increments `contribs` makes (single-bin full weight,
or first/last/interior shares) is exactly `length * na / nh`
(window_reads.py lines 259-274; spec §3 invariant, §8 Conservation and
Split conservation). -/
theorem C4_weight_conservation (step pos len na : ℤ) (nh : ℚ)
    (hstep : 1 ≤ step) (hlen : 1 ≤ len) (hnh : nh ≠ 0) :
    ((contribs step pos len na nh).map Prod.snd).sum = ((len * na : ℤ) : ℚ) / nh := by
  have hb : (0 : ℤ) < step := by omega
  by_cases h : binIdx pos step = binIdx (pos + len - 1) step
  · simp [contribs, h]
  · have hmono : binIdx pos step ≤ binIdx (pos + len - 1) step :=
      binIdx_mono step pos (pos + len - 1) hb (by omega)
    have hlt : binIdx pos step < binIdx (pos + len - 1) step := lt_of_le_of_ne hmono h
    have h0 : ((binIdx (pos + len - 1) step - binIdx pos step - 1).toNat : ℤ) =
        binIdx (pos + len - 1) step - binIdx pos step - 1 :=
      Int.toNat_of_nonneg (by omega)
    have hn : (((binIdx (pos + len - 1) step - binIdx pos step - 1).toNat : ℕ) : ℚ) =
        ((binIdx (pos + len - 1) step : ℤ) : ℚ) - ((binIdx pos step : ℤ) : ℚ) - 1 := by
      rw [← Int.cast_natCast, h0]
      push_cast
      ring
    simp only [contribs, if_neg h]
    rw [List.map_append, List.sum_append, sum_map_snd_range, hn]
    simp only [List.map_cons, List.map_nil, List.sum_cons, List.sum_nil]
    push_cast
    field_simp
    ring

/-- Witness for C4: step 10, start 15, length 20, na 3, nh 2; the record
spans bins 1..3 and the split 9 + 6 + 15 recovers 20·3/2 = 30. -/
theorem C4_weight_conservation_witness :
    (1 : ℤ) ≤ 10 ∧
      ((contribs 10 15 20 3 2).map Prod.snd).sum = ((20 * 3 : ℤ) : ℚ) / 2 :=
  ⟨by decide, C4_weight_conservation 10 15 20 3 2 (by decide) (by decide) (by norm_num)⟩

/-- C10.  For a record inside the declared chromosome (1 ≤ start,
end ≤ L) with positive length, every bin index `contribs` writes lies in
`[0, binCount L step - 1]` — inside the allocated per-chromosome bin list of
window_reads.py line 218 — and `bin_s ≤ bin_e`. -/
theorem C10_bin_indices_in_range (L step pos len na : ℤ) (nh : ℚ)
    (hstep : 1 ≤ step) (hpos : 1 ≤ pos) (hlen : 1 ≤ len)
    (hend : pos + len - 1 ≤ L) :
    (∀ p ∈ contribs step pos len na nh, 0 ≤ p.1 ∧ p.1 ≤ binCount L step - 1) ∧
      binIdx pos step ≤ binIdx (pos + len - 1) step := by
  have hb : (0 : ℤ) < step := by omega
  have hbQ : (0 : ℚ) < (step : ℚ) := by exact_mod_cast hb
  have hmono : binIdx pos step ≤ binIdx (pos + len - 1) step :=
    binIdx_mono step pos (pos + len - 1) hb (by omega)
  have hbs0 : 0 ≤ binIdx pos step := by
    rw [binIdx, ceilDiv_eq_ceil _ _ hb]
    have hposQ : (0 : ℚ) < (pos : ℚ) := by exact_mod_cast (by omega : (0 : ℤ) < pos)
    have : 0 < ⌈(pos : ℚ) / (step : ℚ)⌉ := Int.ceil_pos.mpr (div_pos hposQ hbQ)
    omega
  have hbeU : binIdx (pos + len - 1) step ≤ binCount L step - 1 := by
    rw [binIdx, binCount, ceilDiv_eq_ceil _ _ hb, ceilDiv_eq_ceil _ _ hb]
    have hle : ((pos + len - 1 : ℤ) : ℚ) / (step : ℚ) ≤ (L : ℚ) / (step : ℚ) :=
      (div_le_div_iff_of_pos_right hbQ).mpr (by exact_mod_cast hend)
    have := Int.ceil_mono hle
    omega
  refine ⟨?_, hmono⟩
  intro p hp
  by_cases h : binIdx pos step = binIdx (pos + len - 1) step
  · simp only [contribs, if_pos h, List.mem_singleton] at hp
    subst hp
    exact ⟨hbs0, h ▸ hbeU⟩
  · have hlt : binIdx pos step < binIdx (pos + len - 1) step := lt_of_le_of_ne hmono h
    simp only [contribs, if_neg h, List.mem_append, List.mem_cons, List.mem_map,
      List.mem_range, List.not_mem_nil, or_false] at hp
    rcases hp with (rfl | rfl) | ⟨b, hbmem, rfl⟩
    · exact ⟨hbs0, le_trans hmono hbeU⟩
    · exact ⟨le_trans hbs0 hmono, hbeU⟩
    · constructor <;> (dsimp only; omega)

/-- Witness for C10: chromosome length 100, step 10, start 15, length 20;
bin indices stay inside `[0, 9]` and `bin_s = 1 ≤ bin_e = 3`. -/
theorem C10_bin_indices_in_range_witness :
    binIdx 15 10 ≤ binIdx (15 + 20 - 1) 10 ∧
      (0 ≤ (1 : ℤ) ∧ (1 : ℤ) ≤ binCount 100 10 - 1) :=
  ⟨(C10_bin_indices_in_range 100 10 15 20 3 2 (by decide) (by decide) (by decide)
      (by decide)).2,
   (C10_bin_indices_in_range 100 10 15 20 3 2 (by decide) (by decide) (by decide)
      (by decide)).1 ((1 : ℤ), (9 : ℚ))
     (by norm_num [contribs, binIdx, ceilDiv, List.range_succ])⟩

/-- Whatever pair the re-prompting loop returns satisfies the window/step
invariant: every exit point of the loop is guarded by the three checks. -/
lemma verifyWSLoop_valid :
    ∀ (inputs : List ℤ) (w' s' : ℤ), verifyWSLoop inputs = some (w', s') →
      w' ≠ 0 ∧ s' ≠ 0 ∧ w' % s' = 0 := by
  intro inputs
  induction inputs using verifyWSLoop.induct with
  | case1 =>
    intro w' s' h
    simp [verifyWSLoop] at h
  | case2 rest ih =>
    intro w' s' h
    rw [verifyWSLoop.eq_def] at h
    simp at h
    exact ih w' s' h
  | case3 w hw =>
    intro w' s' h
    simp [verifyWSLoop, hw] at h
  | case4 w hw s rest2 hcond ih =>
    intro w' s' h
    simp only [verifyWSLoop, if_neg hw, if_pos hcond] at h
    exact ih w' s' h
  | case5 w hw s rest2 hcond =>
    intro w' s' h
    simp only [verifyWSLoop, if_neg hw, if_neg hcond] at h
    push_neg at hcond
    obtain ⟨h1, h2⟩ := Prod.mk.injEq .. ▸ Option.some.inj h
    subst h1
    subst h2
    exact ⟨hw, hcond.1, hcond.2⟩

/-- Counterexample to C5 as stated: with the invalid pair window 10 / step 3
on the command line (10 % 3 ≠ 0), `verifyWS` does NOT abort the run.  It
prompts, accepts the replacement pair 10 / 5, and returns it, after which
tallying proceeds normally — `none` (the only aborting outcome of the model)
is never produced.  (window_reads.py lines 43-71; the spec instead requires
"surfaced immediately, run aborts, no partial output".) -/
theorem C5_counterexample_no_abort :
    verifyWS 10 3 [10, 5] = some (10, 5) := by
  decide

/-- C5 (amended).  Invalid window/step values are indeed never used for
tallying, but not by aborting: `verifyWS` interactively re-prompts, and any
configuration it hands to the rest of the run satisfies `w ≠ 0`, `s ≠ 0`
and `w % s == 0` (window_reads.py lines 43-71, 203). -/
theorem C5_accepted_config_satisfies_invariant (w s : ℤ) (inputs : List ℤ)
    (w' s' : ℤ) (h : verifyWS w s inputs = some (w', s')) :
    w' ≠ 0 ∧ s' ≠ 0 ∧ w' % s' = 0 := by
  rw [verifyWS] at h
  by_cases hc : w = 0 ∨ s = 0 ∨ w % s ≠ 0
  · rw [if_pos hc] at h
    exact verifyWSLoop_valid inputs w' s' h
  · rw [if_neg hc] at h
    push_neg at hc
    obtain ⟨h1, h2⟩ := Prod.mk.injEq .. ▸ Option.some.inj h
    subst h1
    subst h2
    exact ⟨hc.1, hc.2.1, hc.2.2⟩

/-- Witness for the amended C5: the accepted pair (10, 5) satisfies the
invariant. -/
theorem C5_accepted_config_satisfies_invariant_witness :
    (10 : ℤ) ≠ 0 ∧ (5 : ℤ) ≠ 0 ∧ (10 : ℤ) % 5 = 0 :=
  C5_accepted_config_satisfies_invariant 10 3 [10, 5] 10 5 (by decide)

/-- C3 fails on the code: `getLength` raises an uncaught `TypeError` on any
CIGAR string with a digit after an earlier operation code, because `number`
is reset to the integer `0` (window_reads.py line 124) and `0 += "3"` is a
type error in Python.  On `"5M3S"` the spec's sum of M/X/I/S/= operand
counts is 8, the code crashes; a single-operation CIGAR such as `"5M"`
still works. -/
theorem C3_getLength_multiop_raises :
    getLength "5M3S" = none ∧ specCigarLength "5M3S" = 8 ∧ getLength "5M" = some 5 :=
  ⟨by decide, by decide, by decide⟩

/-- C1 fails on the code: `window_count` (window_reads.py line 289) is
computed once, OUTSIDE the per-chromosome loop, from the stale loop
variable `c` — the last chromosome of the table.  With chromosomes
A (length 100) and B (length 200), window 20, step 10, the program uses
window_count 19 for BOTH chromosomes, while A's own formula gives
`ceil((100-20)/10)+1 = 9`; aggregating A's 10-bin grid with window_count 19
then raises `IndexError` (window_reads.py line 301). -/
theorem C1_window_count_from_stale_chromosome :
    windowCountUsed [("A", 100), ("B", 200)] 20 10 = some 19 ∧
      windowCount 100 20 10 = 9 ∧
      aggregateChrom (fun _ _ _ => 0) (binCount 100 10) 19 2 1 1 =
        Except.error "IndexError" :=
  ⟨by decide, by decide, by
    norm_num [aggregateChrom, binCount, ceilDiv, List.range_succ, List.mapM.loop,
      List.foldlM, Int.toNat_ofNat, bind, Except.bind, pure, Except.pure]⟩

/-- C6 fails on the code: a chromosome shorter than the window is not
rejected.  With a single chromosome of length 5, window 20, step 10, the
formula gives `window_count = ceil((5-20)/10)+1 = 0`, `range(0)` is empty,
and the run completes normally emitting zero window rows — no configuration
error is ever raised (window_reads.py lines 288-308 have no guard). -/
theorem C6_short_chromosome_not_rejected :
    windowCount 5 20 10 = 0 ∧
      aggregateChrom (fun _ _ _ => 0) (binCount 5 10) (windowCount 5 20 10) 2 1 1 =
        Except.ok [] :=
  ⟨by decide, by
    norm_num [aggregateChrom, binCount, windowCount, ceilDiv, List.range_succ,
      List.mapM.loop, List.foldlM, bind, Except.bind, pure, Except.pure]⟩

/-- C2 fails on the code: with `--abundance` on, a record with no `NA` tag
is NOT fatal (only the first alignment line of the file is checked, by
`getChromosomes`, window_reads.py lines 96-105).  Here the first record
carries `NA:i:3` so the header check passes; the second record (position
201, no `NA` tag) is then processed with the PREVIOUS record's `na = 3`
silently substituted, adding `20 * 3 = 60` into its bin instead of
aborting (window_reads.py lines 240-248: the backward scan never assigns
and `na` keeps its old value). -/
theorem C2_missing_tag_silently_substituted :
    headerTagCheck cfgAb recA = true ∧
      ((processAll cfgAb ingInit [recA, recC]).map fun st => st.steps "A" 2 0 0) =
        some 60 :=
  ⟨by decide, by
    norm_num [processAll, processRec, ingInit, cfgAb, recA, recC, contribs, binIdx,
      ceilDiv, strandOf, addContribs, addAt, List.foldlM, Option.bind]⟩

/-- Sum of a mapped `List.range` as a `Finset.range` sum. -/
lemma range_map_sum (f : ℕ → ℚ) (n : ℕ) :
    ((List.range n).map f).sum = ∑ s ∈ Finset.range n, f s := by
  induction n with
  | zero => simp
  | succ n ih =>
    rw [List.range_succ, Finset.sum_range_succ]
    simp [ih]

/-- A bounds-checked additive fold in `Except` whose checks all pass returns
the plain sum. -/
lemma foldlM_bounded_ok (p : ℕ → Prop) [DecidablePred p] (f : ℕ → ℚ) (e : String) :
    ∀ (l : List ℕ) (init : ℚ), (∀ s ∈ l, p s) →
      l.foldlM (fun acc s => if p s then Except.ok (acc + f s) else Except.error e)
          init =
        Except.ok (init + (l.map f).sum) := by
  intro l
  induction l with
  | nil =>
    intro init _
    show pure init = Except.ok (init + ([] : List ℚ).sum)
    rw [List.sum_nil, add_zero]
    rfl
  | cons a l ih =>
    intro init h
    rw [List.foldlM_cons, if_pos (h a (List.mem_cons_self a l))]
    have hbind : ∀ (x : ℚ) (k : ℚ → Except String ℚ),
        (Except.ok x : Except String ℚ) >>= k = k x := fun _ _ => rfl
    rw [hbind, ih (init + f a) fun s hs => h s (List.mem_cons_of_mem a hs)]
    simp [add_assoc]

/-- `mapM` in `Except` over a list on which the function always succeeds is
`ok` of the `map`. -/
lemma mapM_ok {α β : Type} (f : α → Except String β) (g : α → β) :
    ∀ l : List α, (∀ a ∈ l, f a = Except.ok (g a)) → l.mapM f = Except.ok (l.map g) := by
  intro l
  induction l with
  | nil =>
    intro
    rfl
  | cons a l ih =>
    intro h
    rw [List.mapM_cons, h a (List.mem_cons_self a l),
      ih fun b hb => h b (List.mem_cons_of_mem a hb)]
    rfl

/-- C7.  When every bin access is in range, the window aggregation produces
for every window index `w` and every tally slot exactly the element-wise
sum of step-bins `w .. w + window/step - 1` (window_reads.py lines
296-301; spec §3 WindowAggregate, §8 Window sum correctness). -/
theorem C7_window_aggregate_is_bin_sum (stepsC : ℤ → ℤ → ℕ → ℚ) (nbins wc : ℤ)
    (wstep nlen nstr : ℕ)
    (h : ∀ w < wc.toNat, ∀ s < wstep, ((w + s : ℕ) : ℤ) < nbins) :
    aggregateChrom stepsC nbins wc wstep nlen nstr =
      Except.ok ((List.range wc.toNat).map fun w =>
        (List.range nlen).map fun l =>
          (List.range nstr).map fun x =>
            ∑ s ∈ Finset.range wstep, stepsC ((w + s : ℕ) : ℤ) (l : ℤ) x) := by
  rw [aggregateChrom]
  apply mapM_ok
  intro w hw
  rw [List.mem_range] at hw
  apply mapM_ok
  intro l _
  apply mapM_ok
  intro x _
  rw [foldlM_bounded_ok (fun s => ((w + s : ℕ) : ℤ) < nbins)
      (fun s => stepsC ((w + s : ℕ) : ℤ) (l : ℤ) x) "IndexError" (List.range wstep) 0
      fun s hs => h w hw s (List.mem_range.mp hs)]
  rw [range_map_sum, zero_add]

/-- Witness for C7 on the demo grid: 3 bins, 2 windows of 2 bins each. -/
theorem C7_window_aggregate_is_bin_sum_witness :
    (∀ w < (2 : ℤ).toNat, ∀ s < 2, ((w + s : ℕ) : ℤ) < 3) ∧
      aggregateChrom demoSteps 3 2 2 1 1 =
        Except.ok ((List.range (2 : ℤ).toNat).map fun w =>
          (List.range 1).map fun l =>
            (List.range 1).map fun x =>
              ∑ s ∈ Finset.range 2, demoSteps ((w + s : ℕ) : ℤ) (l : ℤ) x) :=
  ⟨by decide, C7_window_aggregate_is_bin_sum demoSteps 3 2 2 1 1 (by decide)⟩

/-- Pointwise effect of applying a record's increment list: a slot grows by
the sum of the increments aimed at it, other slots are untouched. -/
lemma addContribs_apply (c : String) (l : ℤ) (x : ℕ) :
    ∀ (ps : List (ℤ × ℚ)) (st : Steps) (c' : String) (b' l' : ℤ) (x' : ℕ),
      addContribs c l x st ps c' b' l' x' =
        st c' b' l' x' +
          if c' = c ∧ l' = l ∧ x' = x then
            ((ps.filter fun p => decide (p.1 = b')).map Prod.snd).sum
          else 0 := by
  intro ps
  induction ps with
  | nil =>
    intro st c' b' l' x'
    simp [addContribs]
  | cons p ps ih =>
    intro st c' b' l' x'
    rw [addContribs, ih]
    simp only [addAt, List.filter_cons]
    by_cases hM : c' = c ∧ l' = l ∧ x' = x
    · by_cases hb : p.1 = b'
      · have hA : c' = c ∧ b' = p.1 ∧ l' = l ∧ x' = x := ⟨hM.1, hb.symm, hM.2.1, hM.2.2⟩
        have hd : decide (p.1 = b') = true := by simp [hb]
        rw [if_pos hA, if_pos hM, if_pos hM, hd]
        simp only [if_true, List.map_cons, List.sum_cons]
        ring
      · have hA : ¬(c' = c ∧ b' = p.1 ∧ l' = l ∧ x' = x) := fun hh => hb hh.2.1.symm
        have hd : decide (p.1 = b') = false := by simp [hb]
        rw [if_neg hA, if_pos hM, if_pos hM, hd]
        simp
    · have hA : ¬(c' = c ∧ b' = p.1 ∧ l' = l ∧ x' = x) := fun hh => hM ⟨hh.1, hh.2.2.1, hh.2.2.2⟩
      rw [if_neg hA, if_neg hM, if_neg hM]

/-- Processing one resolved record never fails and adds exactly `recDelta`
to each tally slot. -/
lemma processRec_resolved (cfg : Config) (r : SamRec) (h : resolvedRec cfg r)
    (st : IngSt) :
    ∃ na' nh', processRec cfg st r =
      some ⟨fun c b l x => st.steps c b l x + recDelta cfg r c b l x, na', nh'⟩ := by
  obtain ⟨hna, hnh⟩ := h
  by_cases hf : r.flag ≠ 4
  · by_cases hsz : cfg.sizemin ≤ r.length ∧ r.length ≤ cfg.sizemax
    · have hna' : (if cfg.abundance then (r.naTag <|> st.na) else some 1) =
          some (resolvedNa cfg r) := by
        by_cases ha : cfg.abundance
        · obtain ⟨v, hv⟩ := Option.isSome_iff_exists.mp (hna ha)
          rw [if_pos ha, hv, resolvedNa, if_pos ha, hv]
          rfl
        · rw [if_neg ha, resolvedNa, if_neg ha]
      have hnh' : (if cfg.normalize then (r.nhTag <|> st.nh) else some 1) =
          some (resolvedNh cfg r) := by
        by_cases ha : cfg.normalize
        · obtain ⟨v, hv⟩ := Option.isSome_iff_exists.mp (hnh ha)
          rw [if_pos ha, hv, resolvedNh, if_pos ha, hv]
          rfl
        · rw [if_neg ha, resolvedNh, if_neg ha]
      refine ⟨some (resolvedNa cfg r), some (resolvedNh cfg r), ?_⟩
      rw [processRec, if_pos hf, if_pos hsz]
      simp only [hna', hnh']
      refine congrArg some ?_
      have hrd : ∀ (c : String) (b l : ℤ) (x : ℕ), recDelta cfg r c b l x =
          if c = r.chrom ∧ l = r.length - cfg.sizemin ∧ x = strandOf cfg r then
            (((contribs cfg.step r.pos r.length (resolvedNa cfg r)
                  (resolvedNh cfg r)).filter fun p => decide (p.1 = b)).map
              Prod.snd).sum
          else 0 := by
        intro c b l x
        rw [recDelta, if_pos ⟨hf, hsz⟩]
      have hsteps : addContribs r.chrom (r.length - cfg.sizemin) (strandOf cfg r)
          st.steps
          (contribs cfg.step r.pos r.length (resolvedNa cfg r) (resolvedNh cfg r)) =
          fun c b l x => st.steps c b l x + recDelta cfg r c b l x := by
        funext c b l x
        rw [addContribs_apply, hrd]
      rw [hsteps]
    · refine ⟨st.na, st.nh, ?_⟩
      rw [processRec, if_pos hf, if_neg hsz]
      refine congrArg some ?_
      cases st with
      | mk stS stNa stNh =>
        simp only []
        congr 1
        funext c b l x
        rw [recDelta, if_neg fun hh => hsz hh.2]
        rw [add_zero]
  · refine ⟨st.na, st.nh, ?_⟩
    rw [processRec, if_neg hf]
    refine congrArg some ?_
    cases st with
    | mk stS stNa stNh =>
      simp only []
      congr 1
      funext c b l x
      rw [recDelta, if_neg fun hh => hf hh.1]
      rw [add_zero]

/-- Running the record loop over resolved records succeeds and adds, slot by
slot, the sum of the records' individual increments. -/
lemma processAll_steps_resolved (cfg : Config) :
    ∀ (recs : List SamRec), (∀ r ∈ recs, resolvedRec cfg r) →
      ∀ st : IngSt, (processAll cfg st recs).map IngSt.steps =
        some fun c b l x =>
          st.steps c b l x + (recs.map fun r => recDelta cfg r c b l x).sum := by
  intro recs
  induction recs with
  | nil =>
    intro _ st
    have h0 : processAll cfg st [] = some st := rfl
    rw [h0]
    refine congrArg some ?_
    funext c b l x
    simp
  | cons r recs ih =>
    intro h st
    obtain ⟨na', nh', hrec⟩ :=
      processRec_resolved cfg r (h r (List.mem_cons_self r recs)) st
    have hstep : processAll cfg st (r :: recs) =
        processAll cfg
          ⟨fun c b l x => st.steps c b l x + recDelta cfg r c b l x, na', nh'⟩ recs := by
      rw [processAll, List.foldlM_cons, hrec]
      rfl
    rw [hstep, ih fun r' hr' => h r' (List.mem_cons_of_mem _ hr')]
    refine congrArg some ?_
    funext c b l x
    simp only [List.map_cons, List.sum_cons]
    ring

/-- C9 (amended).  Ingestion is order-insensitive PROVIDED every record
carries the weighting tags the enabled features require ("resolved"
records, as the spec's Normalizer hands them over): permuting the record
stream leaves every final step-bin tally slot unchanged, because each
record then contributes a state-independent commutative addition
(window_reads.py lines 221-274; spec §5). -/
theorem C9_ingestion_perm_invariant_when_tags_resolved (cfg : Config)
    (recs recs' : List SamRec) (st : IngSt)
    (hres : ∀ r ∈ recs, resolvedRec cfg r) (hperm : recs.Perm recs') :
    (processAll cfg st recs).map IngSt.steps =
      (processAll cfg st recs').map IngSt.steps := by
  rw [processAll_steps_resolved cfg recs hres st,
    processAll_steps_resolved cfg recs' (fun r hr => hres r (hperm.mem_iff.mpr hr)) st]
  refine congrArg some ?_
  funext c b l x
  have hmap : (recs.map fun r => recDelta cfg r c b l x).Perm
      (recs'.map fun r => recDelta cfg r c b l x) := hperm.map _
  rw [hmap.sum_eq]

/-- Witness for the amended C9: swapping two tagged records leaves the final
tallies unchanged. -/
theorem C9_ingestion_perm_invariant_witness :
    (processAll cfgAb ingInit [recA, recB]).map IngSt.steps =
      (processAll cfgAb ingInit [recB, recA]).map IngSt.steps :=
  C9_ingestion_perm_invariant_when_tags_resolved cfgAb [recA, recB] [recB, recA]
    ingInit (by decide) (by decide)

/-- Counterexample to C9 as stated (over ALL record sequences): with
`--abundance` on, a record with no `NA` tag inherits the `na` of whichever
tagged record was processed LAST before it, so a permutation of the earlier
records changes the final tallies.  Records A (`NA:i:3`), B (`NA:i:5`) and
untagged C: in order A,B,C bin 2 receives 20·5 = 100, in the permuted order
B,A,C it receives 20·3 = 60 (window_reads.py lines 240-248, 264). -/
theorem C9_counterexample_order_sensitivity :
    ([recA, recB, recC] : List SamRec).Perm [recB, recA, recC] ∧
      ((processAll cfgAb ingInit [recA, recB, recC]).map fun st =>
          st.steps "A" 2 0 0) = some 100 ∧
      ((processAll cfgAb ingInit [recB, recA, recC]).map fun st =>
          st.steps "A" 2 0 0) = some 60 :=
  ⟨by decide,
   by
    norm_num [processAll, processRec, ingInit, cfgAb, recA, recB, recC, contribs,
      binIdx, ceilDiv, strandOf, addContribs, addAt, List.foldlM, Option.bind],
   by
    norm_num [processAll, processRec, ingInit, cfgAb, recA, recB, recC, contribs,
      binIdx, ceilDiv, strandOf, addContribs, addAt, List.foldlM, Option.bind]⟩

end WindowFeature
